/-
Verification of the ZIP encoding-fixer engine (zip-utils module).

The engine works on JavaScript strings, i.e. sequences of UTF-16 code
units; we embed such a string as `JStr := List Nat`, one element per code
unit.  Byte arrays (`Uint8Array`) are embedded as `List Nat` as well.

The platform decoders (`TextDecoder` for euc-kr / shift-jis / gbk with the
fatal option) are external library capabilities, not code of the
repository; the pipeline is therefore parametrised by a `Decoders` record,
and the theorems below quantify over it wherever the claim does not depend
on the concrete decoding tables.
-/
import Mathlib

/-- A JavaScript string: its list of UTF-16 code units. -/
abbrev JStr := List Nat

/-- Embed an ASCII/BMP Lean string literal as a list of UTF-16 code units. -/
def jstr (s : String) : JStr := s.data.map Char.toNat

/-- Source `isLikelyEUCKR`, the pair-counting loop: scan adjacent byte
pairs, counting a pair whose lead byte is in 0x81-0xFE and trail byte in
0x41-0xFE, consuming both bytes of a matched pair. -/
def eucKrPairCount : List Nat → Nat
  | b1 :: b2 :: rest =>
    if 0x81 ≤ b1 ∧ b1 ≤ 0xFE ∧ 0x41 ≤ b2 ∧ b2 ≤ 0xFE then
      eucKrPairCount rest + 1
    else
      eucKrPairCount (b2 :: rest)
  | _ => 0

/-- Source `isLikelyEUCKR`: true when at least one EUC-KR-looking byte pair
was counted. -/
def isLikelyEUCKR (bytes : List Nat) : Bool := eucKrPairCount bytes > 0

/-- Source `hasEncodingIssues`: the string contains U+FFFD, or a code unit
in the C1 range 0x80-0x9F, or the code unit U+FFFE or U+FFFF. -/
def hasEncodingIssues (s : JStr) : Bool :=
  s.any (fun c =>
    c == 0xFFFD || (0x80 ≤ c && c ≤ 0x9F) || c == 0xFFFE || c == 0xFFFF)

/-- Source `isByteString`: every code unit is at most 0xFF. -/
def isByteString (s : JStr) : Bool := s.all (fun c => c ≤ 0xFF)

/-- One step of UTF-16 to scalar-value conversion, as the WHATWG
`TextEncoder` performs it: surrogate pairs are combined, lone surrogates
become U+FFFD. -/
def utf16ToScalars : List Nat → List Nat
  | [] => []
  | c :: rest =>
    if 0xD800 ≤ c ∧ c ≤ 0xDBFF then
      match rest with
      | c2 :: rest2 =>
        if 0xDC00 ≤ c2 ∧ c2 ≤ 0xDFFF then
          (0x10000 + (c - 0xD800) * 0x400 + (c2 - 0xDC00)) :: utf16ToScalars rest2
        else 0xFFFD :: utf16ToScalars (c2 :: rest2)
      | [] => [0xFFFD]
    else c :: utf16ToScalars rest

/-- UTF-8 encoding of one Unicode scalar value. -/
def utf8EncodeCp (c : Nat) : List Nat :=
  if c < 0x80 then [c]
  else if c < 0x800 then [0xC0 + c / 0x40, 0x80 + c % 0x40]
  else if c < 0x10000 then
    [0xE0 + c / 0x1000, 0x80 + c / 0x40 % 0x40, 0x80 + c % 0x40]
  else
    [0xF0 + c / 0x40000, 0x80 + c / 0x1000 % 0x40,
     0x80 + c / 0x40 % 0x40, 0x80 + c % 0x40]

/-- Source `new TextEncoder().encode(filename)`: UTF-8 bytes of the string. -/
def utf8Encode (s : JStr) : List Nat := (utf16ToScalars s).flatMap utf8EncodeCp

/-- The three platform strict decoders used by the source
(`TextDecoder` with the fatal option for euc-kr, shift-jis and gbk); they
are external capabilities, so the pipeline is parametrised by them.  Each
returns the decoded string, or `none` when the byte sequence is invalid
for that encoding. -/
structure Decoders where
  eucKr : List Nat → Option JStr
  shiftJis : List Nat → Option JStr
  gbk : List Nat → Option JStr

/-- The JS pattern `if (decoded && !hasEncodingIssues(decoded))` applied to
a decode result: the decode must have succeeded, be a non-empty (truthy)
string, and be free of encoding issues. -/
def cleanDecode (r : Option JStr) : Option JStr :=
  match r with
  | some s => if s ≠ [] ∧ hasEncodingIssues s = false then some s else none
  | none => none

/-- Source `fixFilenameEncoding`: the encoding repair engine.  Guard 1:
strings that are not byte-representable are returned unfixed.  Guard 2: a
clean-looking byte string is still probed for latin1-smuggled EUC-KR
pairs.  Damaged strings are re-encoded to UTF-8 bytes and the three
candidate decoders are tried in fixed order. -/
def fixFilenameEncoding (d : Decoders) (filename : JStr) : JStr × Bool :=
  if isByteString filename = false then (filename, false)
  else if hasEncodingIssues filename = false then
    if isLikelyEUCKR filename = true then
      match cleanDecode (d.eucKr filename) with
      | some decoded => (decoded, true)
      | none => (filename, false)
    else (filename, false)
  else
    match cleanDecode (d.eucKr (utf8Encode filename)) with
    | some s => (s, true)
    | none =>
      match cleanDecode (d.shiftJis (utf8Encode filename)) with
      | some s => (s, true)
      | none =>
        match cleanDecode (d.gbk (utf8Encode filename)) with
        | some s => (s, true)
        | none => (filename, false)

/-- Source `isMacOSArtifact`:
`path.startsWith('__MACOSX/') || path.includes('/__MACOSX/')`. -/
def isMacOSArtifact (path : JStr) : Bool :=
  decide (jstr "__MACOSX/" <+: path) || decide (jstr "/__MACOSX/" <:+: path)

/-- Source `isDSStore`:
`path.endsWith('.DS_Store') || path.includes('/.DS_Store')`. -/
def isDSStore (path : JStr) : Bool :=
  decide (jstr ".DS_Store" <:+ path) || decide (jstr "/.DS_Store" <:+: path)

/-- JavaScript `path.split(sep)` for a one-character separator: the list of
(possibly empty) chunks, always non-empty. -/
def jsplit (sep : Nat) : JStr → List JStr
  | [] => [[]]
  | c :: rest =>
    if c = sep then [] :: jsplit sep rest
    else
      match jsplit sep rest with
      | [] => [[c]]
      | s :: ss => (c :: s) :: ss

/-- Source `isHiddenFile`: some slash-separated segment starts with a dot
and is not exactly ".DS_Store". -/
def isHiddenFile (path : JStr) : Bool :=
  (jsplit 0x2F path).any (fun part =>
    part.head? == some 0x2E && !(part == jstr ".DS_Store"))

/-- Source `DiagnosticIssue.type`: the four issue kinds. -/
inductive IssueType where
  | encoding
  | macos_artifact
  | ds_store
  | hidden_file
deriving DecidableEq

/-- Source `DiagnosticIssue`. -/
structure DiagnosticIssue where
  type : IssueType
  originalPath : JStr
  fixedPath : Option JStr
  description : JStr
deriving DecidableEq

/-- Source `DiagnosticReport`. -/
structure DiagnosticReport where
  totalFiles : Nat
  issues : List DiagnosticIssue
  macosArtifacts : Nat
  dsStoreFiles : Nat
  encodingIssues : Nat
  hiddenFiles : Nat
  encodingConfidence : Nat
deriving DecidableEq

/-- Source `ProcessingOptions`. -/
structure ProcessingOptions where
  removeMAcOSArtifacts : Bool
  removeDSStore : Bool
  removeHiddenFiles : Bool
  fixEncoding : Bool
deriving DecidableEq

/-- Source `DEFAULT_OPTIONS`. -/
def DEFAULT_OPTIONS : ProcessingOptions :=
  { removeMAcOSArtifacts := true
    removeDSStore := true
    removeHiddenFiles := false
    fixEncoding := true }

/-- One archive entry as JSZip hands it to the loops: its key (path), the
directory flag, and the payload bytes that `zipEntry.async('uint8array')`
would produce.  Container parsing itself is the external library. -/
structure ZipEntry where
  path : JStr
  dir : Bool
  content : List Nat
deriving DecidableEq

/-- The confidence computation shared by `analyzeZip` and `processZip`:
start at 0, add 40 when macOS artifacts or .DS_Store files were seen, add
`min(60, encodingIssues * 15)` when encoding issues were seen, and return
`Math.min(100, ...)`. -/
def calcConfidence (macosArtifacts dsStoreFiles encodingIssues : Nat) : Nat :=
  let c1 := if macosArtifacts > 0 ∨ dsStoreFiles > 0 then 40 else 0
  let c2 := if encodingIssues > 0 then min 60 (encodingIssues * 15) else 0
  min 100 (c1 + c2)

/-- The mutable locals of the `analyzeZip` loop. -/
structure AnalyzeState where
  issues : List DiagnosticIssue
  macosArtifacts : Nat
  dsStoreFiles : Nat
  encodingIssues : Nat
  hiddenFiles : Nat
  totalFiles : Nat
deriving DecidableEq

/-- `analyzeZip` loop, encoding check: run the repair engine and record an
encoding issue when it fixed the name. -/
def analyzeEnc (d : Decoders) (st : AnalyzeState) (e : ZipEntry) : AnalyzeState :=
  let pr := fixFilenameEncoding d e.path
  if pr.2 = true then
    { st with
      encodingIssues := st.encodingIssues + 1
      issues := st.issues ++
        [{ type := .encoding, originalPath := e.path, fixedPath := some pr.1
           description := jstr "파일명 인코딩 문제 감지 (UTF-8로 변환 필요)" }] }
  else st

/-- `analyzeZip` loop, hidden-file check: count and record, then fall
through to the encoding check (no `continue` in the source here). -/
def analyzeHidden (d : Decoders) (st : AnalyzeState) (e : ZipEntry) : AnalyzeState :=
  let st2 :=
    if isHiddenFile e.path = true then
      { st with
        hiddenFiles := st.hiddenFiles + 1
        issues := st.issues ++
          [{ type := .hidden_file, originalPath := e.path, fixedPath := none
             description := jstr "숨김 파일" }] }
    else st
  analyzeEnc d st2 e

/-- `analyzeZip` loop, .DS_Store check: on a match, count, record and
`continue`. -/
def analyzeDS (d : Decoders) (st : AnalyzeState) (e : ZipEntry) : AnalyzeState :=
  if isDSStore e.path = true then
    { st with
      dsStoreFiles := st.dsStoreFiles + 1
      issues := st.issues ++
        [{ type := .ds_store, originalPath := e.path, fixedPath := none
           description := jstr "macOS 폴더 설정 파일 (.DS_Store)" }] }
  else analyzeHidden d st e

/-- `analyzeZip` loop body for one non-directory entry, starting with the
macOS-artifact check, which on a match counts, records and `continue`s. -/
def analyzeStep (d : Decoders) (st : AnalyzeState) (e : ZipEntry) : AnalyzeState :=
  if e.dir = true then st
  else
    let st1 := { st with totalFiles := st.totalFiles + 1 }
    if isMacOSArtifact e.path = true then
      { st1 with
        macosArtifacts := st1.macosArtifacts + 1
        issues := st1.issues ++
          [{ type := .macos_artifact, originalPath := e.path, fixedPath := none
             description := jstr "macOS 메타데이터 파일 (__MACOSX)" }] }
    else analyzeDS d st1 e

/-- Source `analyzeZip`: scan all entries in encounter order and build the
diagnostic report. -/
def analyzeZip (d : Decoders) (entries : List ZipEntry) : DiagnosticReport :=
  let st := entries.foldl (analyzeStep d) ⟨[], 0, 0, 0, 0, 0⟩
  { totalFiles := st.totalFiles
    issues := st.issues
    macosArtifacts := st.macosArtifacts
    dsStoreFiles := st.dsStoreFiles
    encodingIssues := st.encodingIssues
    hiddenFiles := st.hiddenFiles
    encodingConfidence :=
      calcConfidence st.macosArtifacts st.dsStoreFiles st.encodingIssues }

/-- The mutable locals of the `processZip` loop; `output` is the list of
(final path, payload) pairs appended to the target archive. -/
structure ProcessState where
  issues : List DiagnosticIssue
  macosArtifacts : Nat
  dsStoreFiles : Nat
  encodingIssues : Nat
  hiddenFiles : Nat
  totalFiles : Nat
  processedFiles : Nat
  output : List (JStr × List Nat)
deriving DecidableEq

/-- `processZip` loop, encoding fix and copy: when `fixEncoding` is on and
the repair engine fixed the name, count, record and use the fixed name;
then append the payload to the target archive under the final path. -/
def processEnc (d : Decoders) (opts : ProcessingOptions) (st : ProcessState)
    (e : ZipEntry) : ProcessState :=
  let pr := fixFilenameEncoding d e.path
  if opts.fixEncoding = true ∧ pr.2 = true then
    { st with
      encodingIssues := st.encodingIssues + 1
      issues := st.issues ++
        [{ type := .encoding, originalPath := e.path, fixedPath := some pr.1
           description := jstr "파일명 인코딩 수정됨" }]
      output := st.output ++ [(pr.1, e.content)]
      processedFiles := st.processedFiles + 1 }
  else
    { st with
      output := st.output ++ [(e.path, e.content)]
      processedFiles := st.processedFiles + 1 }

/-- `processZip` loop, hidden-file check: always count a match; only when
`removeHiddenFiles` is on, record the issue and drop the entry. -/
def processHidden (d : Decoders) (opts : ProcessingOptions) (st : ProcessState)
    (e : ZipEntry) : ProcessState :=
  if isHiddenFile e.path = true then
    let st2 := { st with hiddenFiles := st.hiddenFiles + 1 }
    if opts.removeHiddenFiles = true then
      { st2 with
        issues := st2.issues ++
          [{ type := .hidden_file, originalPath := e.path, fixedPath := none
             description := jstr "삭제됨: 숨김 파일" }] }
    else processEnc d opts st2 e
  else processEnc d opts st e

/-- `processZip` loop, .DS_Store check: always count a match; only when
`removeDSStore` is on, record the issue and drop the entry. -/
def processDS (d : Decoders) (opts : ProcessingOptions) (st : ProcessState)
    (e : ZipEntry) : ProcessState :=
  if isDSStore e.path = true then
    let st2 := { st with dsStoreFiles := st.dsStoreFiles + 1 }
    if opts.removeDSStore = true then
      { st2 with
        issues := st2.issues ++
          [{ type := .ds_store, originalPath := e.path, fixedPath := none
             description := jstr "삭제됨: .DS_Store 파일" }] }
    else processHidden d opts st2 e
  else processHidden d opts st e

/-- `processZip` loop body for one non-directory entry: macOS-artifact
check first (always count a match; only when `removeMAcOSArtifacts` is on,
record the issue and drop the entry), then the later checks. -/
def processStep (d : Decoders) (opts : ProcessingOptions) (st : ProcessState)
    (e : ZipEntry) : ProcessState :=
  if e.dir = true then st
  else
    let st1 := { st with totalFiles := st.totalFiles + 1 }
    if isMacOSArtifact e.path = true then
      let st2 := { st1 with macosArtifacts := st1.macosArtifacts + 1 }
      if opts.removeMAcOSArtifacts = true then
        { st2 with
          issues := st2.issues ++
            [{ type := .macos_artifact, originalPath := e.path, fixedPath := none
               description := jstr "삭제됨: macOS 메타데이터 파일" }] }
      else processDS d opts st2 e
    else processDS d opts st1 e

/-- Result of `processZip`: the list of entries appended to the target
archive (its bytes are produced by the external container encoder) plus
the diagnostic report. -/
structure ProcessResult where
  output : List (JStr × List Nat)
  report : DiagnosticReport
deriving DecidableEq

/-- Source `processZip`: one forward pass applying the configured drops
and renames, then the same confidence computation as `analyzeZip`. -/
def processZip (d : Decoders) (opts : ProcessingOptions)
    (entries : List ZipEntry) : ProcessResult :=
  let st := entries.foldl (processStep d opts) ⟨[], 0, 0, 0, 0, 0, 0, []⟩
  { output := st.output
    report :=
      { totalFiles := st.totalFiles
        issues := st.issues
        macosArtifacts := st.macosArtifacts
        dsStoreFiles := st.dsStoreFiles
        encodingIssues := st.encodingIssues
        hiddenFiles := st.hiddenFiles
        encodingConfidence :=
          calcConfidence st.macosArtifacts st.dsStoreFiles st.encodingIssues } }

/-- Decoders that reject every byte sequence; a convenient concrete
instantiation for witnesses that do not depend on decoding tables. -/
def noDec : Decoders := ⟨fun _ => none, fun _ => none, fun _ => none⟩

/-- Number of issues of one kind in an issue list. -/
def countType (l : List DiagnosticIssue) (t : IssueType) : Nat :=
  (l.filter (fun i => i.type = t)).length

theorem cleanDecode_eq_some {r : Option JStr} {s : JStr}
    (h : cleanDecode r = some s) : s ≠ [] ∧ hasEncodingIssues s = false := by
  unfold cleanDecode at h
  split at h
  · split at h
    · cases h
      assumption
    · cases h
  · cases h

/-- Guard 1 of the repair engine: a string that is not byte-representable
is returned unchanged and unflagged. -/
theorem fix_of_not_byteString (d : Decoders) (s : JStr)
    (h : isByteString s = false) : fixFilenameEncoding d s = (s, false) := by
  unfold fixFilenameEncoding
  simp [h]

/-- Every exit of the repair engine either leaves the input unchanged with
`wasFixed = false`, or returns a non-empty fixed string that is free of
encoding issues with `wasFixed = true`. -/
theorem fix_cases (d : Decoders) (s : JStr) :
    ((fixFilenameEncoding d s).2 = false ∧ (fixFilenameEncoding d s).1 = s) ∨
    ((fixFilenameEncoding d s).2 = true ∧ (fixFilenameEncoding d s).1 ≠ [] ∧
      hasEncodingIssues (fixFilenameEncoding d s).1 = false) := by
  unfold fixFilenameEncoding
  split
  · exact Or.inl ⟨rfl, rfl⟩
  · split
    · split
      · split
        · rename_i h
          exact Or.inr ⟨rfl, cleanDecode_eq_some h⟩
        · exact Or.inl ⟨rfl, rfl⟩
      · exact Or.inl ⟨rfl, rfl⟩
    · split
      · rename_i h
        exact Or.inr ⟨rfl, cleanDecode_eq_some h⟩
      · split
        · rename_i h
          exact Or.inr ⟨rfl, cleanDecode_eq_some h⟩
        · split
          · rename_i h
            exact Or.inr ⟨rfl, cleanDecode_eq_some h⟩
          · exact Or.inl ⟨rfl, rfl⟩

theorem fix_not_fixed {d : Decoders} {s : JStr}
    (h : (fixFilenameEncoding d s).2 = false) : (fixFilenameEncoding d s).1 = s := by
  rcases fix_cases d s with ⟨_, h1⟩ | ⟨h2, _⟩
  · exact h1
  · rw [h] at h2
    cases h2

theorem fix_fixed_clean {d : Decoders} {s : JStr}
    (h : (fixFilenameEncoding d s).2 = true) :
    hasEncodingIssues (fixFilenameEncoding d s).1 = false := by
  rcases fix_cases d s with ⟨h2, _⟩ | ⟨_, _, h1⟩
  · rw [h] at h2
    cases h2
  · exact h1

/-- The confidence formula as the specification states it: 40 when
metadata artifacts or settings files are present, plus
`min(60, encodingIssues * 15)`, clamped to [0, 100]. -/
def confSpec (m s e : Nat) : Nat :=
  min 100 ((if 0 < m ∨ 0 < s then 40 else 0) + min 60 (e * 15))

theorem calcConfidence_eq_confSpec (m s e : Nat) :
    calcConfidence m s e = confSpec m s e := by
  unfold calcConfidence confSpec
  rcases Nat.eq_zero_or_pos e with he | he
  · subst he
    simp
  · simp [he, Nat.pos_iff_ne_zero]

theorem confSpec_le_100 (m s e : Nat) : confSpec m s e ≤ 100 :=
  Nat.min_le_left _ _

theorem confSpec_mono_enc (m s : Nat) {e e' : Nat} (h : e ≤ e') :
    confSpec m s e ≤ confSpec m s e' := by
  unfold confSpec
  refine min_le_min (le_refl _) (Nat.add_le_add_left ?_ _)
  exact min_le_min (le_refl _) (Nat.mul_le_mul_right _ h)

theorem confSpec_mono_pres {m s m' s' : Nat} (e : Nat)
    (h : 0 < m ∨ 0 < s → 0 < m' ∨ 0 < s') :
    confSpec m s e ≤ confSpec m' s' e := by
  unfold confSpec
  refine min_le_min (le_refl _) (Nat.add_le_add_right ?_ _)
  by_cases hp : 0 < m ∨ 0 < s
  · simp [hp, h hp]
  · simp [hp]

theorem countType_append (l₁ l₂ : List DiagnosticIssue) (t : IssueType) :
    countType (l₁ ++ l₂) t = countType l₁ t + countType l₂ t := by
  simp [countType, List.filter_append]

theorem countType_singleton (i : DiagnosticIssue) (t : IssueType) :
    countType [i] t = if i.type = t then 1 else 0 := by
  simp only [countType, List.filter]
  split <;> simp_all

/-- Invariant preservation along a left fold. -/
theorem foldl_preserve {σ α : Type} {P : σ → Prop} {f : σ → α → σ}
    (h : ∀ s a, P s → P (f s a)) :
    ∀ (l : List α) (s : σ), P s → P (l.foldl f s) := by
  intro l
  induction l with
  | nil => intro s hs; exact hs
  | cons a l ih =>
    intro s hs
    exact ih (f s a) (h s a hs)

/-- The counter/issue-list agreement maintained by the `analyzeZip` loop. -/
def analyzeCountInv (st : AnalyzeState) : Prop :=
  st.macosArtifacts = countType st.issues .macos_artifact ∧
  st.dsStoreFiles = countType st.issues .ds_store ∧
  st.encodingIssues = countType st.issues .encoding ∧
  st.hiddenFiles = countType st.issues .hidden_file

theorem analyzeEnc_count (d : Decoders) (st : AnalyzeState) (e : ZipEntry)
    (h : analyzeCountInv st) : analyzeCountInv (analyzeEnc d st e) := by
  obtain ⟨h1, h2, h3, h4⟩ := h
  unfold analyzeEnc
  dsimp only
  split
  · exact ⟨by simp [countType_append, countType_singleton, h1],
      by simp [countType_append, countType_singleton, h2],
      by simp [countType_append, countType_singleton, h3],
      by simp [countType_append, countType_singleton, h4]⟩
  · exact ⟨h1, h2, h3, h4⟩

theorem analyzeHidden_count (d : Decoders) (st : AnalyzeState) (e : ZipEntry)
    (h : analyzeCountInv st) : analyzeCountInv (analyzeHidden d st e) := by
  unfold analyzeHidden
  dsimp only
  apply analyzeEnc_count
  obtain ⟨h1, h2, h3, h4⟩ := h
  split
  · exact ⟨by simp [countType_append, countType_singleton, h1],
      by simp [countType_append, countType_singleton, h2],
      by simp [countType_append, countType_singleton, h3],
      by simp [countType_append, countType_singleton, h4]⟩
  · exact ⟨h1, h2, h3, h4⟩

theorem analyzeDS_count (d : Decoders) (st : AnalyzeState) (e : ZipEntry)
    (h : analyzeCountInv st) : analyzeCountInv (analyzeDS d st e) := by
  unfold analyzeDS
  split
  · obtain ⟨h1, h2, h3, h4⟩ := h
    exact ⟨by simp [countType_append, countType_singleton, h1],
      by simp [countType_append, countType_singleton, h2],
      by simp [countType_append, countType_singleton, h3],
      by simp [countType_append, countType_singleton, h4]⟩
  · exact analyzeHidden_count d st e h

theorem analyzeStep_count (d : Decoders) (st : AnalyzeState) (e : ZipEntry)
    (h : analyzeCountInv st) : analyzeCountInv (analyzeStep d st e) := by
  unfold analyzeStep
  dsimp only
  split
  · exact h
  · obtain ⟨h1, h2, h3, h4⟩ := h
    split
    · exact ⟨by simp [countType_append, countType_singleton, h1],
        by simp [countType_append, countType_singleton, h2],
        by simp [countType_append, countType_singleton, h3],
        by simp [countType_append, countType_singleton, h4]⟩
    · exact analyzeDS_count d _ e ⟨h1, h2, h3, h4⟩

theorem analyzeZip_counts (d : Decoders) (es : List ZipEntry) :
    (analyzeZip d es).macosArtifacts
        = countType (analyzeZip d es).issues .macos_artifact ∧
    (analyzeZip d es).dsStoreFiles
        = countType (analyzeZip d es).issues .ds_store ∧
    (analyzeZip d es).encodingIssues
        = countType (analyzeZip d es).issues .encoding ∧
    (analyzeZip d es).hiddenFiles
        = countType (analyzeZip d es).issues .hidden_file :=
  foldl_preserve (fun s a => analyzeStep_count d s a) es ⟨[], 0, 0, 0, 0, 0⟩
    ⟨rfl, rfl, rfl, rfl⟩

/-- The counter/issue-list agreement maintained by the `processZip` loop:
the encoding counter always matches its issue count, the other three only
when the corresponding removal option is on. -/
def processCountInv (opts : ProcessingOptions) (st : ProcessState) : Prop :=
  st.encodingIssues = countType st.issues .encoding ∧
  (opts.removeMAcOSArtifacts = true →
    st.macosArtifacts = countType st.issues .macos_artifact) ∧
  (opts.removeDSStore = true →
    st.dsStoreFiles = countType st.issues .ds_store) ∧
  (opts.removeHiddenFiles = true →
    st.hiddenFiles = countType st.issues .hidden_file)

theorem processEnc_count (d : Decoders) (opts : ProcessingOptions)
    (st : ProcessState) (e : ZipEntry) (h : processCountInv opts st) :
    processCountInv opts (processEnc d opts st e) := by
  obtain ⟨h1, h2, h3, h4⟩ := h
  unfold processEnc
  dsimp only
  split
  · exact ⟨by simp [countType_append, countType_singleton, h1],
      fun ho => by simp [countType_append, countType_singleton, h2 ho],
      fun ho => by simp [countType_append, countType_singleton, h3 ho],
      fun ho => by simp [countType_append, countType_singleton, h4 ho]⟩
  · exact ⟨h1, h2, h3, h4⟩

theorem processHidden_count (d : Decoders) (opts : ProcessingOptions)
    (st : ProcessState) (e : ZipEntry) (h : processCountInv opts st) :
    processCountInv opts (processHidden d opts st e) := by
  obtain ⟨h1, h2, h3, h4⟩ := h
  unfold processHidden
  dsimp only
  split
  · split
    · rename_i ho
      exact ⟨by simp [countType_append, countType_singleton, h1],
        fun ho2 => by simp [countType_append, countType_singleton, h2 ho2],
        fun ho2 => by simp [countType_append, countType_singleton, h3 ho2],
        fun _ => by simp [countType_append, countType_singleton, h4 ho]⟩
    · rename_i ho
      exact processEnc_count d opts _ e
        ⟨h1, h2, h3, fun ho2 => absurd ho2 ho⟩
  · exact processEnc_count d opts st e ⟨h1, h2, h3, h4⟩

theorem processDS_count (d : Decoders) (opts : ProcessingOptions)
    (st : ProcessState) (e : ZipEntry) (h : processCountInv opts st) :
    processCountInv opts (processDS d opts st e) := by
  obtain ⟨h1, h2, h3, h4⟩ := h
  unfold processDS
  dsimp only
  split
  · split
    · rename_i ho
      exact ⟨by simp [countType_append, countType_singleton, h1],
        fun ho2 => by simp [countType_append, countType_singleton, h2 ho2],
        fun _ => by simp [countType_append, countType_singleton, h3 ho],
        fun ho2 => by simp [countType_append, countType_singleton, h4 ho2]⟩
    · rename_i ho
      exact processHidden_count d opts _ e
        ⟨h1, h2, fun ho2 => absurd ho2 ho, h4⟩
  · exact processHidden_count d opts st e ⟨h1, h2, h3, h4⟩

theorem processStep_count (d : Decoders) (opts : ProcessingOptions)
    (st : ProcessState) (e : ZipEntry) (h : processCountInv opts st) :
    processCountInv opts (processStep d opts st e) := by
  obtain ⟨h1, h2, h3, h4⟩ := h
  unfold processStep
  dsimp only
  split
  · exact ⟨h1, h2, h3, h4⟩
  · split
    · split
      · rename_i ho
        exact ⟨by simp [countType_append, countType_singleton, h1],
          fun _ => by simp [countType_append, countType_singleton, h2 ho],
          fun ho2 => by simp [countType_append, countType_singleton, h3 ho2],
          fun ho2 => by simp [countType_append, countType_singleton, h4 ho2]⟩
      · rename_i ho
        exact processDS_count d opts _ e
          ⟨h1, fun ho2 => absurd ho2 ho, h3, h4⟩
    · exact processDS_count d opts _ e ⟨h1, h2, h3, h4⟩

theorem processZip_counts (d : Decoders) (opts : ProcessingOptions)
    (es : List ZipEntry) :
    (processZip d opts es).report.encodingIssues
        = countType (processZip d opts es).report.issues .encoding ∧
    (opts.removeMAcOSArtifacts = true →
      (processZip d opts es).report.macosArtifacts
        = countType (processZip d opts es).report.issues .macos_artifact) ∧
    (opts.removeDSStore = true →
      (processZip d opts es).report.dsStoreFiles
        = countType (processZip d opts es).report.issues .ds_store) ∧
    (opts.removeHiddenFiles = true →
      (processZip d opts es).report.hiddenFiles
        = countType (processZip d opts es).report.issues .hidden_file) :=
  foldl_preserve (fun s a => processStep_count d opts s a) es
    ⟨[], 0, 0, 0, 0, 0, 0, []⟩
    ⟨rfl, fun _ => rfl, fun _ => rfl, fun _ => rfl⟩

/-- Issue-list property: every issue whose original path matches the
metadata-artifact pattern was recorded as a metadata artifact. -/
def macOnly (issues : List DiagnosticIssue) : Prop :=
  ∀ i ∈ issues, isMacOSArtifact i.originalPath = true → i.type = .macos_artifact

/-- Issue-list property: every encoding issue carries a fixed path that is
free of encoding issues. -/
def encClean (issues : List DiagnosticIssue) : Prop :=
  ∀ i ∈ issues, i.type = .encoding →
    ∃ f, i.fixedPath = some f ∧ hasEncodingIssues f = false

theorem macOnly_append_of_not {issues : List DiagnosticIssue}
    {i0 : DiagnosticIssue} (h : macOnly issues)
    (h0 : isMacOSArtifact i0.originalPath = false) : macOnly (issues ++ [i0]) := by
  intro i hi him
  rcases List.mem_append.mp hi with h' | h'
  · exact h i h' him
  · rw [List.mem_singleton.mp h'] at him
    rw [h0] at him
    cases him

theorem macOnly_append_mac {issues : List DiagnosticIssue}
    {i0 : DiagnosticIssue} (h : macOnly issues)
    (h0 : i0.type = .macos_artifact) : macOnly (issues ++ [i0]) := by
  intro i hi _
  rcases List.mem_append.mp hi with h' | h'
  · exact h i h' (by assumption)
  · rw [List.mem_singleton.mp h']
    exact h0

theorem analyzeEnc_macOnly (d : Decoders) (st : AnalyzeState) (e : ZipEntry)
    (hmac : isMacOSArtifact e.path = false) (h : macOnly st.issues) :
    macOnly (analyzeEnc d st e).issues := by
  unfold analyzeEnc
  dsimp only
  split
  · exact macOnly_append_of_not h hmac
  · exact h

theorem analyzeHidden_macOnly (d : Decoders) (st : AnalyzeState) (e : ZipEntry)
    (hmac : isMacOSArtifact e.path = false) (h : macOnly st.issues) :
    macOnly (analyzeHidden d st e).issues := by
  unfold analyzeHidden
  dsimp only
  apply analyzeEnc_macOnly d _ e hmac
  split
  · exact macOnly_append_of_not h hmac
  · exact h

theorem analyzeDS_macOnly (d : Decoders) (st : AnalyzeState) (e : ZipEntry)
    (hmac : isMacOSArtifact e.path = false) (h : macOnly st.issues) :
    macOnly (analyzeDS d st e).issues := by
  unfold analyzeDS
  split
  · exact macOnly_append_of_not h hmac
  · exact analyzeHidden_macOnly d st e hmac h

theorem analyzeStep_macOnly (d : Decoders) (st : AnalyzeState) (e : ZipEntry)
    (h : macOnly st.issues) : macOnly (analyzeStep d st e).issues := by
  unfold analyzeStep
  dsimp only
  split
  · exact h
  · split
    · exact macOnly_append_mac h rfl
    · rename_i hm
      exact analyzeDS_macOnly d _ e (Bool.not_eq_true _ ▸ hm) h

theorem processEnc_macOnly (d : Decoders) (opts : ProcessingOptions)
    (st : ProcessState) (e : ZipEntry)
    (hmac : isMacOSArtifact e.path = false) (h : macOnly st.issues) :
    macOnly (processEnc d opts st e).issues := by
  unfold processEnc
  dsimp only
  split
  · exact macOnly_append_of_not h hmac
  · exact h

theorem processHidden_macOnly (d : Decoders) (opts : ProcessingOptions)
    (st : ProcessState) (e : ZipEntry)
    (hmac : isMacOSArtifact e.path = false) (h : macOnly st.issues) :
    macOnly (processHidden d opts st e).issues := by
  unfold processHidden
  dsimp only
  split
  · split
    · exact macOnly_append_of_not h hmac
    · exact processEnc_macOnly d opts _ e hmac h
  · exact processEnc_macOnly d opts st e hmac h

theorem processDS_macOnly (d : Decoders) (opts : ProcessingOptions)
    (st : ProcessState) (e : ZipEntry)
    (hmac : isMacOSArtifact e.path = false) (h : macOnly st.issues) :
    macOnly (processDS d opts st e).issues := by
  unfold processDS
  dsimp only
  split
  · split
    · exact macOnly_append_of_not h hmac
    · exact processHidden_macOnly d opts _ e hmac h
  · exact processHidden_macOnly d opts st e hmac h

theorem processStep_macOnly (d : Decoders) (opts : ProcessingOptions)
    (st : ProcessState) (e : ZipEntry)
    (hopt : opts.removeMAcOSArtifacts = true) (h : macOnly st.issues) :
    macOnly (processStep d opts st e).issues := by
  unfold processStep
  dsimp only
  split
  · exact h
  · split
    · exact macOnly_append_mac h rfl
    · rename_i hm
      exact processDS_macOnly d opts _ e (Bool.not_eq_true _ ▸ hm) h

theorem encClean_append_other {issues : List DiagnosticIssue}
    {i0 : DiagnosticIssue} (h : encClean issues)
    (h0 : i0.type ≠ .encoding) : encClean (issues ++ [i0]) := by
  intro i hi hit
  rcases List.mem_append.mp hi with h' | h'
  · exact h i h' hit
  · rw [List.mem_singleton.mp h'] at hit
    exact absurd hit h0

theorem encClean_append_enc {d : Decoders} {issues : List DiagnosticIssue}
    {p ds : JStr} (h : encClean issues)
    (hfix : (fixFilenameEncoding d p).2 = true) :
    encClean (issues ++
      [⟨.encoding, p, some (fixFilenameEncoding d p).1, ds⟩]) := by
  intro i hi hit
  rcases List.mem_append.mp hi with h' | h'
  · exact h i h' hit
  · rw [List.mem_singleton.mp h']
    exact ⟨(fixFilenameEncoding d p).1, rfl, fix_fixed_clean hfix⟩

theorem analyzeEnc_encClean (d : Decoders) (st : AnalyzeState) (e : ZipEntry)
    (h : encClean st.issues) : encClean (analyzeEnc d st e).issues := by
  unfold analyzeEnc
  dsimp only
  split
  · rename_i hfix
    exact encClean_append_enc h hfix
  · exact h

theorem analyzeHidden_encClean (d : Decoders) (st : AnalyzeState) (e : ZipEntry)
    (h : encClean st.issues) : encClean (analyzeHidden d st e).issues := by
  unfold analyzeHidden
  dsimp only
  apply analyzeEnc_encClean
  split
  · exact encClean_append_other h (by intro hh; cases hh)
  · exact h

theorem analyzeDS_encClean (d : Decoders) (st : AnalyzeState) (e : ZipEntry)
    (h : encClean st.issues) : encClean (analyzeDS d st e).issues := by
  unfold analyzeDS
  split
  · exact encClean_append_other h (by intro hh; cases hh)
  · exact analyzeHidden_encClean d st e h

theorem analyzeStep_encClean (d : Decoders) (st : AnalyzeState) (e : ZipEntry)
    (h : encClean st.issues) : encClean (analyzeStep d st e).issues := by
  unfold analyzeStep
  dsimp only
  split
  · exact h
  · split
    · exact encClean_append_other h (by intro hh; cases hh)
    · exact analyzeDS_encClean d _ e h

theorem processEnc_encClean (d : Decoders) (opts : ProcessingOptions)
    (st : ProcessState) (e : ZipEntry)
    (h : encClean st.issues) : encClean (processEnc d opts st e).issues := by
  unfold processEnc
  dsimp only
  split
  · rename_i hfix
    exact encClean_append_enc h hfix.2
  · exact h

theorem processHidden_encClean (d : Decoders) (opts : ProcessingOptions)
    (st : ProcessState) (e : ZipEntry)
    (h : encClean st.issues) : encClean (processHidden d opts st e).issues := by
  unfold processHidden
  dsimp only
  split
  · split
    · exact encClean_append_other h (by intro hh; cases hh)
    · exact processEnc_encClean d opts _ e h
  · exact processEnc_encClean d opts st e h

theorem processDS_encClean (d : Decoders) (opts : ProcessingOptions)
    (st : ProcessState) (e : ZipEntry)
    (h : encClean st.issues) : encClean (processDS d opts st e).issues := by
  unfold processDS
  dsimp only
  split
  · split
    · exact encClean_append_other h (by intro hh; cases hh)
    · exact processHidden_encClean d opts _ e h
  · exact processHidden_encClean d opts st e h

theorem processStep_encClean (d : Decoders) (opts : ProcessingOptions)
    (st : ProcessState) (e : ZipEntry)
    (h : encClean st.issues) : encClean (processStep d opts st e).issues := by
  unfold processStep
  dsimp only
  split
  · exact h
  · split
    · split
      · exact encClean_append_other h (by intro hh; cases hh)
      · exact processDS_encClean d opts _ e h
    · exact processDS_encClean d opts _ e h

/-- What one kept output entry can be: the payload of the current entry,
under its original or its repaired path. -/
def keptFrom (d : Decoders) (e : ZipEntry) (pc : JStr × List Nat) : Prop :=
  e.dir = false ∧ pc.2 = e.content ∧
    (pc.1 = e.path ∨ pc.1 = (fixFilenameEncoding d e.path).1)

theorem processEnc_output {d : Decoders} {opts : ProcessingOptions}
    {st : ProcessState} {e : ZipEntry} {pc : JStr × List Nat}
    (hd : e.dir = false) (h : pc ∈ (processEnc d opts st e).output) :
    pc ∈ st.output ∨ keptFrom d e pc := by
  unfold processEnc at h
  dsimp only at h
  split at h
  · rcases List.mem_append.mp h with h' | h'
    · exact Or.inl h'
    · rw [List.mem_singleton.mp h']
      exact Or.inr ⟨hd, rfl, Or.inr rfl⟩
  · rcases List.mem_append.mp h with h' | h'
    · exact Or.inl h'
    · rw [List.mem_singleton.mp h']
      exact Or.inr ⟨hd, rfl, Or.inl rfl⟩

theorem processHidden_output {d : Decoders} {opts : ProcessingOptions}
    {st : ProcessState} {e : ZipEntry} {pc : JStr × List Nat}
    (hd : e.dir = false) (h : pc ∈ (processHidden d opts st e).output) :
    pc ∈ st.output ∨ keptFrom d e pc := by
  unfold processHidden at h
  dsimp only at h
  split at h
  · split at h
    · exact Or.inl h
    · have h2 := @processEnc_output d opts _ e pc hd h
      exact h2
  · exact processEnc_output hd h

theorem processDS_output {d : Decoders} {opts : ProcessingOptions}
    {st : ProcessState} {e : ZipEntry} {pc : JStr × List Nat}
    (hd : e.dir = false) (h : pc ∈ (processDS d opts st e).output) :
    pc ∈ st.output ∨ keptFrom d e pc := by
  unfold processDS at h
  dsimp only at h
  split at h
  · split at h
    · exact Or.inl h
    · have h2 := @processHidden_output d opts _ e pc hd h
      exact h2
  · exact processHidden_output hd h

theorem processStep_output {d : Decoders} {opts : ProcessingOptions}
    {st : ProcessState} {e : ZipEntry} {pc : JStr × List Nat}
    (h : pc ∈ (processStep d opts st e).output) :
    pc ∈ st.output ∨ keptFrom d e pc := by
  unfold processStep at h
  dsimp only at h
  split at h
  · exact Or.inl h
  · rename_i hd
    split at h
    · split at h
      · exact Or.inl h
      · have h2 := @processDS_output d opts _ e pc (Bool.not_eq_true _ ▸ hd) h
        exact h2
    · have h2 := @processDS_output d opts _ e pc (Bool.not_eq_true _ ▸ hd) h
      exact h2

theorem processFold_output (d : Decoders) (opts : ProcessingOptions) :
    ∀ (l : List ZipEntry) (st : ProcessState) (pc : JStr × List Nat),
      pc ∈ (l.foldl (processStep d opts) st).output →
      pc ∈ st.output ∨ ∃ e ∈ l, keptFrom d e pc := by
  intro l
  induction l with
  | nil =>
    intro st pc h
    exact Or.inl h
  | cons a l ih =>
    intro st pc h
    rcases ih (processStep d opts st a) pc h with h' | ⟨e, he, hk⟩
    · rcases processStep_output h' with h2 | h2
      · exact Or.inl h2
      · exact Or.inr ⟨a, List.mem_cons_self a l, h2⟩
    · exact Or.inr ⟨e, List.mem_cons_of_mem a he, hk⟩

theorem processZip_output {d : Decoders} {opts : ProcessingOptions}
    {es : List ZipEntry} {pc : JStr × List Nat}
    (h : pc ∈ (processZip d opts es).output) :
    ∃ e ∈ es, keptFrom d e pc := by
  have h2 := processFold_output d opts es ⟨[], 0, 0, 0, 0, 0, 0, []⟩ pc h
  rcases h2 with h' | h'
  · cases h'
  · exact h'

theorem analyzeZip_macOnly (d : Decoders) (es : List ZipEntry) :
    macOnly (analyzeZip d es).issues :=
  foldl_preserve (fun s a => analyzeStep_macOnly d s a) es ⟨[], 0, 0, 0, 0, 0⟩
    (fun _ hi => absurd hi (List.not_mem_nil _))

theorem processZip_macOnly (d : Decoders) (opts : ProcessingOptions)
    (es : List ZipEntry) (hopt : opts.removeMAcOSArtifacts = true) :
    macOnly (processZip d opts es).report.issues :=
  foldl_preserve (fun s a => processStep_macOnly d opts s a hopt) es
    ⟨[], 0, 0, 0, 0, 0, 0, []⟩ (fun _ hi => absurd hi (List.not_mem_nil _))

theorem analyzeZip_encClean (d : Decoders) (es : List ZipEntry) :
    encClean (analyzeZip d es).issues :=
  foldl_preserve (fun s a => analyzeStep_encClean d s a) es ⟨[], 0, 0, 0, 0, 0⟩
    (fun _ hi => absurd hi (List.not_mem_nil _))

theorem processZip_encClean (d : Decoders) (opts : ProcessingOptions)
    (es : List ZipEntry) : encClean (processZip d opts es).report.issues :=
  foldl_preserve (fun s a => processStep_encClean d opts s a) es
    ⟨[], 0, 0, 0, 0, 0, 0, []⟩ (fun _ hi => absurd hi (List.not_mem_nil _))

/-- Modelled from the spec: the repository calls the platform strict
decoder `new TextDecoder('euc-kr', { fatal: true })` (spec section 4.3,
candidate encoding #1, "a Korean double-byte legacy encoding"); its
decoding table -- the windows-949 index of the WHATWG encoding standard --
is not part of the repository.  This pair table is the fragment of that
index used in this file: bytes 0xA1 0xC6 decode to U+00B0 (degree sign)
and bytes 0xB0 0xB0 decode to U+AC19 (Hangul syllable GAT), exactly as in
windows-949. -/
def eucKrPairTable (b1 b2 : Nat) : Option Nat :=
  if b1 = 0xA1 ∧ b2 = 0xC6 then some 0xB0
  else if b1 = 0xB0 ∧ b2 = 0xB0 then some 0xAC19
  else none

/-- Modelled from the spec: the strict euc-kr decode algorithm over the
fragment table -- ASCII bytes pass through, a lead byte above 0x7F consumes
one trail byte via the pair table, and any unmapped sequence fails (the
fatal option).  On every byte sequence this file evaluates it on, it
agrees with the platform decoder. -/
def eucKrFragment : List Nat → Option JStr
  | [] => some []
  | b :: rest =>
    if b ≤ 0x7F then
      match eucKrFragment rest with
      | some s => some (b :: s)
      | none => none
    else
      match rest with
      | [] => none
      | b2 :: rest2 =>
        match eucKrPairTable b b2 with
        | some c =>
          match eucKrFragment rest2 with
          | some s => some (c :: s)
          | none => none
        | none => none

/-- The `Decoders` instantiation with the euc-kr fragment; the shift-jis
and gbk decoders are never consulted by the evaluations below (they only
run on strings that already look damaged). -/
def eucOnly : Decoders := ⟨eucKrFragment, fun _ => none, fun _ => none⟩

/-- C2: a string with a code unit above 0xFF is not byte-representable and
the repair engine returns it unchanged with `wasFixed == false`, for every
choice of platform decoders. -/
theorem c2_unicode_guard (d : Decoders) (s : JStr)
    (h : isByteString s = false) : fixFilenameEncoding d s = (s, false) :=
  fix_of_not_byteString d s h

theorem c2_unicode_guard_witness :
    isByteString [0x100] = false ∧
    fixFilenameEncoding noDec [0x100] = ([0x100], false) :=
  ⟨by decide, c2_unicode_guard noDec [0x100] (by decide)⟩

/-- C3 counterexample: repair is not idempotent.  The byte-representable
string 0xA1 0xC6 0xA1 0xC6 (the euc-kr bytes of two degree signs read as
latin1) is repaired to the two-code-unit string U+00B0 U+00B0, which is
itself byte-representable and forms an EUC-KR-looking pair, so a second
repair run flags it again and rewrites it to U+AC19. -/
theorem c3_idempotence_counterexample :
    fixFilenameEncoding eucOnly [0xA1, 0xC6, 0xA1, 0xC6] = ([0xB0, 0xB0], true) ∧
    fixFilenameEncoding eucOnly [0xB0, 0xB0] = ([0xAC19], true) ∧
    fixFilenameEncoding eucOnly
        ((fixFilenameEncoding eucOnly [0xA1, 0xC6, 0xA1, 0xC6]).1)
      ≠ ((fixFilenameEncoding eucOnly [0xA1, 0xC6, 0xA1, 0xC6]).1, false) := by
  refine ⟨by decide, by decide, ?_⟩
  decide

/-- C3 amended: repair is idempotent on every path whose repair either did
not fix anything or produced a fixed name that is not byte-representable
(the common case: a repaired name contains genuine multi-byte characters).
A byte-representable fixed output can be re-flagged, as the counterexample
shows. -/
theorem c3_idempotence_amended (d : Decoders) (p : JStr)
    (h : (fixFilenameEncoding d p).2 = false ∨
      isByteString (fixFilenameEncoding d p).1 = false) :
    fixFilenameEncoding d ((fixFilenameEncoding d p).1)
      = ((fixFilenameEncoding d p).1, false) := by
  rcases h with h | h
  · have h1 := fix_not_fixed h
    rw [h1]
    exact Prod.ext h1 h
  · exact fix_of_not_byteString d _ h

theorem c3_idempotence_witness :
    fixFilenameEncoding noDec ((fixFilenameEncoding noDec (jstr "a")).1)
      = ((fixFilenameEncoding noDec (jstr "a")).1, false) :=
  c3_idempotence_amended noDec (jstr "a") (Or.inl (by decide))

theorem hasEncodingIssues_eq_false {s : JStr}
    (h : hasEncodingIssues s = false) :
    ∀ c ∈ s, c ≠ 0xFFFD ∧ ¬(0x80 ≤ c ∧ c ≤ 0x9F) ∧ c ≠ 0xFFFE ∧ c ≠ 0xFFFF := by
  intro c hc
  have h2 := List.any_eq_false.mp h c hc
  simp only [Bool.or_eq_true, beq_iff_eq, Bool.and_eq_true, decide_eq_true_eq,
    not_or] at h2
  obtain ⟨⟨⟨hA, hB⟩, hC⟩, hD⟩ := h2
  exact ⟨hA, hB, hC, hD⟩

/-- C10: whenever the repair engine reports `wasFixed == true` the fixed
string passes the mojibake detector: it contains no replacement character
U+FFFD, no C1 control code unit (0x80-0x9F) and neither of the
non-characters U+FFFE / U+FFFF; consequently every encoding issue recorded
by `analyzeZip` or `processZip` carries such a clean `fixedPath`. -/
theorem c10_fixed_clean (d : Decoders) (s : JStr) :
    ((fixFilenameEncoding d s).2 = true →
      hasEncodingIssues (fixFilenameEncoding d s).1 = false ∧
      ∀ c ∈ (fixFilenameEncoding d s).1,
        c ≠ 0xFFFD ∧ ¬(0x80 ≤ c ∧ c ≤ 0x9F) ∧ c ≠ 0xFFFE ∧ c ≠ 0xFFFF) ∧
    (∀ es : List ZipEntry, ∀ i ∈ (analyzeZip d es).issues,
      i.type = .encoding →
        ∃ f, i.fixedPath = some f ∧ hasEncodingIssues f = false) ∧
    (∀ (opts : ProcessingOptions) (es : List ZipEntry),
      ∀ i ∈ (processZip d opts es).report.issues, i.type = .encoding →
        ∃ f, i.fixedPath = some f ∧ hasEncodingIssues f = false) := by
  refine ⟨?_, ?_, ?_⟩
  · intro h
    exact ⟨fix_fixed_clean h, hasEncodingIssues_eq_false (fix_fixed_clean h)⟩
  · intro es
    exact analyzeZip_encClean d es
  · intro opts es
    exact processZip_encClean d opts es

theorem c10_fixed_clean_witness :
    (fixFilenameEncoding eucOnly [0xA1, 0xC6, 0xA1, 0xC6]).2 = true ∧
    hasEncodingIssues (fixFilenameEncoding eucOnly [0xA1, 0xC6, 0xA1, 0xC6]).1
      = false :=
  ⟨by decide,
    ((c10_fixed_clean eucOnly [0xA1, 0xC6, 0xA1, 0xC6]).1 (by decide)).1⟩

/-- C1 counterexample: with `removeMAcOSArtifacts` off, `processZip` still
increments the macOS-artifact counter for a matching entry but records no
issue, so the counter exceeds the issue count. -/
theorem c1_counters_counterexample :
    (processZip noDec ⟨false, true, false, true⟩
        [⟨jstr "__MACOSX/a.txt", false, []⟩]).report.macosArtifacts = 1 ∧
    countType (processZip noDec ⟨false, true, false, true⟩
        [⟨jstr "__MACOSX/a.txt", false, []⟩]).report.issues .macos_artifact
      = 0 := by
  refine ⟨by decide, ?_⟩
  decide

/-- C1 amended: in every `analyzeZip` report all four counters equal the
number of issues of the corresponding kind; in every `processZip` report
the encoding counter always does, while the macOS-artifact, .DS_Store and
hidden-file counters do so whenever the corresponding removal option is
on (with the option off the counter still counts matching entries but no
issue is recorded). -/
theorem c1_counters_amended (d : Decoders) (es : List ZipEntry)
    (opts : ProcessingOptions) :
    ((analyzeZip d es).macosArtifacts
        = countType (analyzeZip d es).issues .macos_artifact ∧
     (analyzeZip d es).dsStoreFiles
        = countType (analyzeZip d es).issues .ds_store ∧
     (analyzeZip d es).encodingIssues
        = countType (analyzeZip d es).issues .encoding ∧
     (analyzeZip d es).hiddenFiles
        = countType (analyzeZip d es).issues .hidden_file) ∧
    ((processZip d opts es).report.encodingIssues
        = countType (processZip d opts es).report.issues .encoding ∧
     (opts.removeMAcOSArtifacts = true →
       (processZip d opts es).report.macosArtifacts
         = countType (processZip d opts es).report.issues .macos_artifact) ∧
     (opts.removeDSStore = true →
       (processZip d opts es).report.dsStoreFiles
         = countType (processZip d opts es).report.issues .ds_store) ∧
     (opts.removeHiddenFiles = true →
       (processZip d opts es).report.hiddenFiles
         = countType (processZip d opts es).report.issues .hidden_file)) :=
  ⟨analyzeZip_counts d es, processZip_counts d opts es⟩

theorem c1_counters_witness :
    (processZip noDec DEFAULT_OPTIONS
        [⟨jstr "__MACOSX/a.txt", false, []⟩]).report.macosArtifacts
      = countType (processZip noDec DEFAULT_OPTIONS
        [⟨jstr "__MACOSX/a.txt", false, []⟩]).report.issues .macos_artifact :=
  (c1_counters_amended noDec [⟨jstr "__MACOSX/a.txt", false, []⟩]
    DEFAULT_OPTIONS).2.2.1 (by decide)

/-- C6 counterexample: with `removeMAcOSArtifacts` off, a path matching
both the metadata-artifact and the hidden-file pattern falls through the
macOS check inside `processZip` and is additionally counted (and recorded)
as a hidden file. -/
theorem c6_precedence_counterexample :
    isMacOSArtifact (jstr "__MACOSX/.foo") = true ∧
    isHiddenFile (jstr "__MACOSX/.foo") = true ∧
    (processZip noDec ⟨false, true, true, true⟩
        [⟨jstr "__MACOSX/.foo", false, []⟩]).report.hiddenFiles = 1 ∧
    countType (processZip noDec ⟨false, true, true, true⟩
        [⟨jstr "__MACOSX/.foo", false, []⟩]).report.issues .hidden_file
      = 1 := by
  refine ⟨by decide, by decide, by decide, ?_⟩
  decide

/-- C6 amended: in every `analyzeZip` report, and in every `processZip`
report produced with `removeMAcOSArtifacts` on, every issue whose original
path matches the metadata-artifact pattern has kind metadata-artifact --
in particular such a path is never also recorded as a hidden file. -/
theorem c6_precedence_amended (d : Decoders) (es : List ZipEntry)
    (opts : ProcessingOptions) :
    (∀ i ∈ (analyzeZip d es).issues,
      isMacOSArtifact i.originalPath = true → i.type = .macos_artifact) ∧
    (opts.removeMAcOSArtifacts = true →
      ∀ i ∈ (processZip d opts es).report.issues,
        isMacOSArtifact i.originalPath = true → i.type = .macos_artifact) :=
  ⟨analyzeZip_macOnly d es, fun h => processZip_macOnly d opts es h⟩

theorem c6_precedence_witness :
    ((⟨.macos_artifact, jstr "__MACOSX/a.txt", none,
        jstr "macOS 메타데이터 파일 (__MACOSX)"⟩ : DiagnosticIssue)).type
      = .macos_artifact :=
  (c6_precedence_amended noDec [⟨jstr "__MACOSX/a.txt", false, []⟩]
    DEFAULT_OPTIONS).1 _ (by decide) (by decide)

/-- C9: every entry kept in the output archive of `processZip` carries
exactly the payload bytes of a source entry; only its path may have been
replaced by the repaired path. -/
theorem c9_payload_preserved (d : Decoders) (opts : ProcessingOptions)
    (es : List ZipEntry) (pc : JStr × List Nat)
    (h : pc ∈ (processZip d opts es).output) :
    ∃ e ∈ es, e.dir = false ∧ pc.2 = e.content ∧
      (pc.1 = e.path ∨ pc.1 = (fixFilenameEncoding d e.path).1) := by
  rcases processZip_output h with ⟨e, he, hk⟩
  exact ⟨e, he, hk.1, hk.2.1, hk.2.2⟩

theorem c9_payload_preserved_witness :
    (jstr "a.txt", ([1, 2, 3] : List Nat)) ∈ (processZip noDec DEFAULT_OPTIONS
        [⟨jstr "a.txt", false, [1, 2, 3]⟩]).output ∧
    ∃ e ∈ [(⟨jstr "a.txt", false, [1, 2, 3]⟩ : ZipEntry)], e.dir = false ∧
      (jstr "a.txt", ([1, 2, 3] : List Nat)).2 = e.content ∧
      ((jstr "a.txt", ([1, 2, 3] : List Nat)).1 = e.path ∨
        (jstr "a.txt", ([1, 2, 3] : List Nat)).1
          = (fixFilenameEncoding noDec e.path).1) :=
  ⟨by decide, c9_payload_preserved noDec DEFAULT_OPTIONS _ _ (by decide)⟩

/-- C5: the confidence score of every report equals the specified formula
of the counters of that same report -- 40 when metadata artifacts or
settings files are present plus `min(60, encodingIssues * 15)`, clamped to
[0, 100] -- and that formula is monotone in the encoding-issue count, is
monotone in the presence of metadata-artifact/settings-file entries, and
never exceeds 100. -/
theorem c5_confidence (d : Decoders) (es : List ZipEntry)
    (opts : ProcessingOptions) (m s m2 s2 e1 e2 : Nat)
    (hms : 0 < m ∨ 0 < s → 0 < m2 ∨ 0 < s2) (he : e1 ≤ e2) :
    (analyzeZip d es).encodingConfidence
      = confSpec (analyzeZip d es).macosArtifacts
          (analyzeZip d es).dsStoreFiles (analyzeZip d es).encodingIssues ∧
    (processZip d opts es).report.encodingConfidence
      = confSpec (processZip d opts es).report.macosArtifacts
          (processZip d opts es).report.dsStoreFiles
          (processZip d opts es).report.encodingIssues ∧
    confSpec m s e1 ≤ confSpec m s e2 ∧
    confSpec m s e1 ≤ confSpec m2 s2 e1 ∧
    confSpec m s e1 ≤ 100 :=
  ⟨calcConfidence_eq_confSpec _ _ _, calcConfidence_eq_confSpec _ _ _,
    confSpec_mono_enc m s he, confSpec_mono_pres e1 hms,
    confSpec_le_100 m s e1⟩

theorem c5_confidence_witness :
    (analyzeZip noDec []).encodingConfidence
      = confSpec (analyzeZip noDec []).macosArtifacts
          (analyzeZip noDec []).dsStoreFiles
          (analyzeZip noDec []).encodingIssues ∧
    (processZip noDec DEFAULT_OPTIONS []).report.encodingConfidence
      = confSpec (processZip noDec DEFAULT_OPTIONS []).report.macosArtifacts
          (processZip noDec DEFAULT_OPTIONS []).report.dsStoreFiles
          (processZip noDec DEFAULT_OPTIONS []).report.encodingIssues ∧
    confSpec 0 0 0 ≤ confSpec 0 0 1 ∧
    confSpec 0 0 0 ≤ confSpec 1 0 0 ∧
    confSpec 0 0 0 ≤ 100 :=
  c5_confidence noDec [] DEFAULT_OPTIONS 0 0 1 0 0 1 (by omega) (by omega)

/-- A Unicode non-character, restricted to single UTF-16 code units as the
detector sees them: the contiguous range U+FDD0-U+FDEF or the plane-final
pair U+FFFE/U+FFFF. -/
def isNonCharacter (c : Nat) : Bool :=
  (0xFDD0 ≤ c && c ≤ 0xFDEF) || c == 0xFFFE || c == 0xFFFF

/-- The detector contract exactly as claim C4 words it: replacement
character, byte-order mark or non-character codepoint, or C1 control. -/
def claimedDamaged (s : JStr) : Bool :=
  s.any (fun c =>
    c == 0xFFFD || c == 0xFEFF || isNonCharacter c || (0x80 ≤ c && c ≤ 0x9F))

/-- C4 counterexample: a string containing only the byte-order mark U+FEFF
(or only the non-character U+FDD0) is damaged according to the claim but
is not flagged by the detector. -/
theorem c4_detector_counterexample :
    claimedDamaged [0xFEFF] = true ∧ hasEncodingIssues [0xFEFF] = false ∧
    claimedDamaged [0xFDD0] = true ∧ hasEncodingIssues [0xFDD0] = false := by
  refine ⟨by decide, by decide, by decide, ?_⟩
  decide

/-- C4 amended: the detector flags a string if and only if it contains the
replacement character U+FFFD, a code unit in the C1 range 0x80-0x9F, or
one of the two non-characters U+FFFE / U+FFFF; the byte-order mark U+FEFF
and the remaining non-characters are not inspected. -/
theorem c4_detector_amended (s : JStr) :
    hasEncodingIssues s = true ↔
      ∃ c ∈ s, c = 0xFFFD ∨ (0x80 ≤ c ∧ c ≤ 0x9F) ∨ c = 0xFFFE ∨ c = 0xFFFF := by
  unfold hasEncodingIssues
  rw [List.any_eq_true]
  constructor
  · rintro ⟨c, hc, hpred⟩
    simp only [Bool.or_eq_true, beq_iff_eq, Bool.and_eq_true,
      decide_eq_true_eq] at hpred
    refine ⟨c, hc, ?_⟩
    tauto
  · rintro ⟨c, hc, hpred⟩
    refine ⟨c, hc, ?_⟩
    simp only [Bool.or_eq_true, beq_iff_eq, Bool.and_eq_true,
      decide_eq_true_eq]
    tauto

theorem jsplit_nil (sep : Nat) : jsplit sep [] = [[]] := rfl

theorem jsplit_ne_nil (sep : Nat) (p : JStr) : jsplit sep p ≠ [] := by
  cases p with
  | nil => simp [jsplit]
  | cons c rest =>
    rw [jsplit]
    split
    · simp
    · split <;> simp

theorem jsplit_cons_sep (sep : Nat) (t : JStr) :
    jsplit sep (sep :: t) = [] :: jsplit sep t := by
  rw [jsplit]
  simp

theorem jsplit_cons_ne (sep c : Nat) (t : JStr) (hc : c ≠ sep) :
    jsplit sep (c :: t)
      = (c :: (jsplit sep t).headI) :: (jsplit sep t).tail := by
  rw [jsplit]
  rw [if_neg hc]
  rcases hjs : jsplit sep t with _ | ⟨s, ss⟩
  · exact absurd hjs (jsplit_ne_nil sep t)
  · simp

/-- JavaScript `parts.join(sep)` for a one-character separator. -/
def jjoin (sep : Nat) : List JStr → JStr
  | [] => []
  | [s] => s
  | s :: ss => s ++ sep :: jjoin sep ss

theorem jjoin_cons (sep : Nat) (s : JStr) {ss : List JStr} (h : ss ≠ []) :
    jjoin sep (s :: ss) = s ++ sep :: jjoin sep ss := by
  cases ss with
  | nil => exact absurd rfl h
  | cons a as => rfl

theorem jjoin_jsplit (sep : Nat) (p : JStr) : jjoin sep (jsplit sep p) = p := by
  induction p with
  | nil => rfl
  | cons c rest ih =>
    by_cases hc : c = sep
    · subst hc
      rw [jsplit_cons_sep, jjoin_cons _ _ (jsplit_ne_nil c rest), ih]
      rfl
    · rw [jsplit_cons_ne sep c rest hc]
      rcases hjs : jsplit sep rest with _ | ⟨s, ss⟩
      · exact absurd hjs (jsplit_ne_nil sep rest)
      · rw [hjs] at ih
        simp only [List.headI, List.tail_cons]
        cases ss with
        | nil =>
          show c :: s = c :: rest
          rw [show s = rest from ih]
        | cons a as =>
          show (c :: s) ++ sep :: jjoin sep (a :: as) = c :: rest
          have ih2 : s ++ sep :: jjoin sep (a :: as) = rest := ih
          rw [List.cons_append, ih2]

theorem jsplit_head_append (sep : Nat) (w t : JStr) (hw : sep ∉ w) :
    jsplit sep (w ++ t)
      = (w ++ (jsplit sep t).headI) :: (jsplit sep t).tail := by
  induction w with
  | nil =>
    simp only [List.nil_append]
    rcases hjs : jsplit sep t with _ | ⟨s, ss⟩
    · exact absurd hjs (jsplit_ne_nil sep t)
    · simp
  | cons c w ih =>
    have hc : c ≠ sep := fun hcc => hw (hcc ▸ List.mem_cons_self c w)
    have hw2 : sep ∉ w := fun hm => hw (List.mem_cons_of_mem c hm)
    show jsplit sep (c :: (w ++ t)) = _
    rw [jsplit_cons_ne sep c (w ++ t) hc, ih hw2]
    simp

theorem jsplit_sepFree (sep : Nat) (w : JStr) (hw : sep ∉ w) :
    jsplit sep w = [w] := by
  have h := jsplit_head_append sep w [] hw
  rw [List.append_nil, jsplit_nil] at h
  simpa using h

theorem jsplit_sep_append (sep : Nat) (w t : JStr) (hw : sep ∉ w) :
    jsplit sep (w ++ sep :: t) = w :: jsplit sep t := by
  have h := jsplit_head_append sep w (sep :: t) hw
  rw [jsplit_cons_sep] at h
  simpa using h

theorem sep_mem_of_tail_ne {sep : Nat} {p : JStr}
    (h : (jsplit sep p).tail ≠ []) : sep ∈ p := by
  by_cases hm : sep ∈ p
  · exact hm
  · rw [jsplit_sepFree sep p hm] at h
    simp at h

theorem headI_jsplit_isPre (sep : Nat) (p : JStr) :
    (jsplit sep p).headI <+: p := by
  have hp := jjoin_jsplit sep p
  rcases hjs : jsplit sep p with _ | ⟨s, ss⟩
  · exact absurd hjs (jsplit_ne_nil sep p)
  · rw [hjs] at hp
    cases ss with
    | nil =>
      simp only [List.headI]
      exact hp ▸ List.prefix_rfl
    | cons a as =>
      rw [jjoin_cons sep s (by simp)] at hp
      simp only [List.headI]
      exact hp ▸ List.prefix_append s _

/-- A directory-piece pattern `w ++ [sep]` is a prefix of `p` iff the
first segment of `p` is exactly `w` and at least one further segment
follows. -/
theorem dir_first_iff (sep : Nat) (w p : JStr) (hw : sep ∉ w) :
    (w ++ [sep]) <+: p ↔
      (jsplit sep p).headI = w ∧ (jsplit sep p).tail ≠ [] := by
  constructor
  · rintro ⟨t, ht⟩
    have hp : p = w ++ sep :: t := by
      rw [← ht]
      simp
    rw [hp, jsplit_sep_append sep w t hw]
    exact ⟨rfl, by simp [jsplit_ne_nil]⟩
  · rintro ⟨hh, hne⟩
    have hp := jjoin_jsplit sep p
    rcases hjs : jsplit sep p with _ | ⟨s, ss⟩
    · exact absurd hjs (jsplit_ne_nil sep p)
    · rw [hjs] at hh hne hp
      simp only [List.headI] at hh
      simp only [List.tail_cons] at hne
      rw [jjoin_cons sep s hne] at hp
      refine ⟨jjoin sep ss, ?_⟩
      rw [← hp, hh]
      simp

/-- A sep-free word `w` is a prefix of `p` iff it is a prefix of the first
segment of `p`. -/
theorem pre_head_iff (sep : Nat) (w p : JStr) (hw : sep ∉ w) :
    w <+: p ↔ w <+: (jsplit sep p).headI := by
  constructor
  · rintro ⟨t, ht⟩
    rw [← ht, jsplit_head_append sep w t hw]
    simp only [List.headI]
    exact ⟨(jsplit sep t).headI, rfl⟩
  · intro h
    exact h.trans (headI_jsplit_isPre sep p)

/-- A sep-free word `w` is a suffix of `p` iff it is a suffix of the last
segment of `p`. -/
theorem suf_last_iff (sep : Nat) (w p : JStr) (hw : sep ∉ w) :
    w <:+ p ↔ w <:+ (jsplit sep p).getLastD [] := by
  induction p with
  | nil => simp [jsplit_nil]
  | cons c rest ih =>
    by_cases hc : c = sep
    · subst hc
      rw [jsplit_cons_sep, List.getLastD_cons, List.suffix_cons_iff, ih]
      have hne : w ≠ c :: rest := by
        intro he
        exact hw (he ▸ List.mem_cons_self c rest)
      constructor
      · rintro (he | hs)
        · exact absurd he hne
        · exact hs
      · exact Or.inr
    · rw [jsplit_cons_ne sep c rest hc, List.suffix_cons_iff, ih]
      rcases hjs : jsplit sep rest with _ | ⟨s, ss⟩
      · exact absurd hjs (jsplit_ne_nil sep rest)
      · simp only [List.headI, List.tail_cons]
        cases ss with
        | nil =>
          have hrs : rest = s := by
            have hp := jjoin_jsplit sep rest
            rw [hjs] at hp
            exact hp.symm
          subst hrs
          simp only [List.getLastD_cons, List.getLastD]
          exact List.suffix_cons_iff.symm
        | cons a as =>
          have hsep : sep ∈ rest := by
            apply @sep_mem_of_tail_ne sep rest
            rw [hjs]
            simp
          have hne : w ≠ c :: rest := by
            intro he
            exact hw (he ▸ List.mem_cons_of_mem c hsep)
          simp only [List.getLastD_cons]
          constructor
          · rintro (he | hs)
            · exact absurd he hne
            · exact hs
          · exact Or.inr

/-- The pattern `sep :: w` (with `w` sep-free) occurs in `p` iff `w` is a
prefix of some segment after the first. -/
theorem infix_after_sep_iff (sep : Nat) (w p : JStr) (hw : sep ∉ w) :
    (sep :: w) <:+: p ↔ ∃ s ∈ (jsplit sep p).tail, w <+: s := by
  induction p with
  | nil =>
    constructor
    · intro h
      have := h.length_le
      simp at this
    · rintro ⟨s, hs, _⟩
      rw [jsplit_nil] at hs
      simp at hs
  | cons c rest ih =>
    rw [List.infix_cons_iff, List.cons_prefix_cons]
    by_cases hc : c = sep
    · subst hc
      rw [jsplit_cons_sep, List.tail_cons, ih]
      rcases hjs : jsplit c rest with _ | ⟨s, ss⟩
      · exact absurd hjs (jsplit_ne_nil c rest)
      · constructor
        · rintro (⟨_, hp⟩ | ⟨t, ht, hp⟩)
          · refine ⟨s, List.mem_cons_self s ss, ?_⟩
            rw [pre_head_iff c w rest hw, hjs] at hp
            simpa using hp
          · exact ⟨t, List.mem_cons_of_mem s ht, hp⟩
        · rintro ⟨t, ht, hp⟩
          rcases List.mem_cons.mp ht with he | ht2
          · refine Or.inl ⟨rfl, ?_⟩
            rw [pre_head_iff c w rest hw, hjs]
            simpa using he ▸ hp
          · exact Or.inr ⟨t, ht2, hp⟩
    · rw [jsplit_cons_ne sep c rest hc, List.tail_cons, ih]
      constructor
      · rintro (⟨he, _⟩ | h)
        · exact absurd he.symm hc
        · exact h
      · intro h
        exact Or.inr h

theorem mem_dropLast_cons {w s : JStr} {ss : List JStr} :
    w ∈ (s :: ss).dropLast ↔ ss ≠ [] ∧ (w = s ∨ w ∈ ss.dropLast) := by
  cases ss with
  | nil => simp [List.dropLast]
  | cons a as =>
    constructor
    · intro h
      rcases List.mem_cons.mp h with he | hm
      · exact ⟨by simp, Or.inl he⟩
      · exact ⟨by simp, Or.inr hm⟩
    · rintro ⟨_, he | hm⟩
      · exact he ▸ List.mem_cons_self _ _
      · exact List.mem_cons_of_mem _ hm

/-- The pattern `sep :: w ++ [sep]` (with `w` sep-free) occurs in `p` iff
`w` is a full segment of `p` at an interior position: after the first
segment and before the last. -/
theorem infix_dir_iff (sep : Nat) (w p : JStr) (hw : sep ∉ w) :
    (sep :: (w ++ [sep])) <:+: p ↔ w ∈ ((jsplit sep p).tail).dropLast := by
  induction p with
  | nil =>
    constructor
    · intro h
      have := h.length_le
      simp at this
    · intro hs
      rw [jsplit_nil] at hs
      simp at hs
  | cons c rest ih =>
    rw [List.infix_cons_iff, List.cons_prefix_cons]
    by_cases hc : c = sep
    · subst hc
      rw [jsplit_cons_sep, List.tail_cons, ih]
      rw [dir_first_iff c w rest hw]
      rcases hjs : jsplit c rest with _ | ⟨s, ss⟩
      · exact absurd hjs (jsplit_ne_nil c rest)
      · rw [mem_dropLast_cons]
        simp only [List.headI, List.tail_cons]
        constructor
        · rintro (⟨_, hh, hne⟩ | h)
          · exact ⟨hne, Or.inl hh.symm⟩
          · refine ⟨?_, Or.inr h⟩
            intro hss
            subst hss
            simp at h
        · rintro ⟨hne, he | hm⟩
          · exact Or.inl ⟨by trivial, he.symm, hne⟩
          · exact Or.inr hm
    · rw [jsplit_cons_ne sep c rest hc, List.tail_cons, ih]
      constructor
      · rintro (⟨he, _⟩ | h)
        · exact absurd he.symm hc
        · exact h
      · intro h
        exact Or.inr h

/-- The metadata-artifact contract as claim C8 words it, with exact
segment matching: the path begins with `__MACOSX` (its first segment is
exactly that name) or contains `__MACOSX` as a directory component. -/
def claimedMetadataArtifact (p : JStr) : Bool :=
  ((jsplit 0x2F p).headI == jstr "__MACOSX")
    || ((jsplit 0x2F p).dropLast.contains (jstr "__MACOSX"))

/-- C8 counterexample: the bare path `__MACOSX` begins with the reserved
name, so the claim flags it, but the code requires a following slash and
returns false. -/
theorem c8_metadata_counterexample :
    isMacOSArtifact (jstr "__MACOSX") = false ∧
    claimedMetadataArtifact (jstr "__MACOSX") = true := by
  refine ⟨?_, by decide⟩
  decide

/-- C8 amended: `isMacOSArtifact` returns true iff `__MACOSX` occurs as a
directory component, i.e. as a segment that is followed by at least one
further segment; a path whose final (or only) segment is `__MACOSX` is
not flagged. -/
theorem c8_metadata_amended (p : JStr) :
    isMacOSArtifact p = true ↔ jstr "__MACOSX" ∈ (jsplit 0x2F p).dropLast := by
  unfold isMacOSArtifact
  simp only [Bool.or_eq_true, decide_eq_true_eq]
  rw [show jstr "__MACOSX/" = jstr "__MACOSX" ++ [0x2F] from by decide]
  rw [show jstr "/__MACOSX/" = 0x2F :: (jstr "__MACOSX" ++ [0x2F]) from by decide]
  rw [dir_first_iff 0x2F (jstr "__MACOSX") p (by decide)]
  rw [infix_dir_iff 0x2F (jstr "__MACOSX") p (by decide)]
  rcases hjs : jsplit 0x2F p with _ | ⟨s, ss⟩
  · exact absurd hjs (jsplit_ne_nil _ p)
  · rw [mem_dropLast_cons]
    simp only [List.headI, List.tail_cons]
    constructor
    · rintro (⟨hh, hne⟩ | hm)
      · exact ⟨hne, Or.inl hh.symm⟩
      · refine ⟨?_, Or.inr hm⟩
        intro hss
        subst hss
        simp at hm
    · rintro ⟨hne, he | hm⟩
      · exact Or.inl ⟨he.symm, hne⟩
      · exact Or.inr hm

/-- The settings-file contract as claim C7 words it: the final path
segment equals ".DS_Store". -/
def claimedSettingsFile (p : JStr) : Bool :=
  (jsplit 0x2F p).getLastD [] == jstr ".DS_Store"

/-- C7 counterexample: the path `my.DS_Store` has final segment
`my.DS_Store`, which does not equal `.DS_Store`, yet the code returns
true because the path merely ends with the string `.DS_Store`. -/
theorem c7_settings_counterexample :
    isDSStore (jstr "my.DS_Store") = true ∧
    claimedSettingsFile (jstr "my.DS_Store") = false ∧
    (jsplit 0x2F (jstr "my.DS_Store")).getLastD [] = jstr "my.DS_Store" := by
  refine ⟨by decide, by decide, ?_⟩
  decide

/-- C7 amended: `isDSStore` returns true iff the final segment merely ends
with `.DS_Store`, or some segment after the first begins with
`.DS_Store`; in particular a final segment exactly equal to `.DS_Store`
is flagged, but so are names like `my.DS_Store` and paths like
`a/.DS_Store/b`. -/
theorem c7_settings_amended (p : JStr) :
    isDSStore p = true ↔
      (jstr ".DS_Store" <:+ (jsplit 0x2F p).getLastD [] ∨
        ∃ s ∈ (jsplit 0x2F p).tail, jstr ".DS_Store" <+: s) := by
  unfold isDSStore
  simp only [Bool.or_eq_true, decide_eq_true_eq]
  rw [show jstr "/.DS_Store" = 0x2F :: jstr ".DS_Store" from by decide]
  rw [suf_last_iff 0x2F (jstr ".DS_Store") p (by decide)]
  rw [infix_after_sep_iff 0x2F (jstr ".DS_Store") p (by decide)]

